import Mathlib

/-!
Verification development for the `assets_tool` note-editor extension
(`src/main.ts`).  The development shallowly embeds the plugin's pure logic:

* the date parse/format wrapper (`parseDate`, `formatDate`) around the
  date-fns library, modelled concretely for the plugin's default
  `dateFormat` pattern (year-month-day, literal T, hour:minute) over a
  millisecond timeline (`Int`, as JavaScript `Date` is epoch milliseconds);
* the debounce decision (`shouldUpdateValue`), the eligibility filter
  (`shouldFileBeIgnored`), and the frontmatter mutation performed inside
  `processFrontMatter` (`mutateFm`), together with the outcome classification
  of `handleFileChange`;
* the settings normalization (`getIgnoreFolders`);
* the link normalizer: the global-regex rewrite of `![[ref]]` / `![[ref|alias]]`
  embeds (`rewriteDoc`), the link-index lookup (`getFiles`) and the command
  body (`renameAllImageUrl`).

JavaScript strings are modelled as `List Char` wherever character-level
computation happens, with `String` (a structure holding a `List Char`) at the
boundaries.
-/

/-! ### JavaScript string helpers -/

/-- Characters treated as whitespace by JavaScript `String.prototype.trim`
(the common ones; the source only ever tests emptiness after trimming). -/
def jsWhitespace (c : Char) : Bool :=
  c = ' ' || c = '\t' || c = '\n' || c = '\r' || c = '\u000b' || c = '\u000c'

/-- Model of JavaScript `String.prototype.trim`. -/
def jsTrim (l : List Char) : List Char :=
  ((l.dropWhile jsWhitespace).reverse.dropWhile jsWhitespace).reverse

/-- Model of JavaScript `s.startsWith(p)`. -/
def jsStartsWith (s p : List Char) : Bool :=
  p.isPrefixOf s

/-- Model of JavaScript `hay.includes(ndl)` (substring containment). -/
def jsIncludes (hay ndl : List Char) : Bool :=
  match hay with
  | [] => ndl.isEmpty
  | _ :: t => ndl.isPrefixOf hay || jsIncludes t ndl

/-- `ndl` occurs as a contiguous substring of `hay`. -/
def ContainsSub (hay ndl : List Char) : Prop :=
  ∃ a b, hay = a ++ ndl ++ b

/-! ### Civil calendar: model of date-fns `format`/`parse` for the default
pattern.  The timeline is epoch milliseconds.  `date-fns` `parse` zeroes the
units below the smallest unit present in the pattern (its setters call e.g.
`setHours(value, 0, 0, 0)`), so the default pattern carries minute
precision. -/

/-- Gregorian leap-year test. -/
def isLeap (y : Nat) : Bool :=
  y % 4 = 0 && (y % 100 ≠ 0 || y % 400 = 0)

/-- Number of days in year `y`. -/
def daysInYear (y : Nat) : Nat :=
  if isLeap y then 366 else 365

/-- Number of days in month `m` (1..12) of a (non-)leap year. -/
def monthLen (leap : Bool) : Nat → Nat
  | 1 => 31
  | 2 => if leap then 29 else 28
  | 3 => 31
  | 4 => 30
  | 5 => 31
  | 6 => 30
  | 7 => 31
  | 8 => 31
  | 9 => 30
  | 10 => 31
  | 11 => 30
  | 12 => 31
  | _ => 0

/-- Days before month `m` in its year. -/
def daysBeforeMonth (leap : Bool) : Nat → Nat
  | 0 => 0
  | 1 => 0
  | m + 1 => daysBeforeMonth leap m + monthLen leap m

/-- Total days of the `k` consecutive years starting at year `y`. -/
def daysUpTo : Nat → Nat → Nat
  | 0, _ => 0
  | k + 1, y => daysInYear y + daysUpTo k (y + 1)

/-- Total days of the years in `[a, b)`. -/
def daysFromTo (a b : Nat) : Nat :=
  daysUpTo (b - a) a

/-- Split a day count into (year, day-of-year), scanning years upward from
`y`.  Fuel-driven so that the definition is structurally recursive; fuel at
least the day count suffices, as every year has at least 365 days. -/
def yearAux : Nat → Nat → Nat → Nat × Nat
  | 0, y, days => (y, days)
  | fuel + 1, y, days =>
    if days < daysInYear y then (y, days)
    else yearAux fuel (y + 1) (days - daysInYear y)

/-- Split a day-of-year into (month, day-of-month), scanning months upward
from `m`. -/
def monthAux : Nat → Bool → Nat → Nat → Nat × Nat
  | 0, _, m, doy => (m, doy + 1)
  | fuel + 1, leap, m, doy =>
    if doy < monthLen leap m then (m, doy + 1)
    else monthAux fuel leap (m + 1) (doy - monthLen leap m)

/-- A calendar date-time at the minute precision of the default pattern. -/
structure Civil where
  y : Nat
  m : Nat
  d : Nat
  hh : Nat
  mi : Nat
  deriving DecidableEq, Repr

/-- Decompose nonnegative epoch milliseconds into a civil date-time
(minute precision). -/
def msToCivil (n : Nat) : Civil :=
  let totalMin := n / 60000
  let days := totalMin / 1440
  let minOfDay := totalMin % 1440
  let yd := yearAux days 1970 days
  let md := monthAux 11 (isLeap yd.1) 1 yd.2
  ⟨yd.1, md.1, md.2, minOfDay / 60, minOfDay % 60⟩

/-- Total minutes since the epoch of a civil date-time. -/
def civilToMin (c : Civil) : Nat :=
  (daysFromTo 1970 c.y + daysBeforeMonth (isLeap c.y) c.m + (c.d - 1)) * 1440
    + c.hh * 60 + c.mi

/-- Epoch milliseconds of a civil date-time (minute precision). -/
def civilToMs (c : Civil) : Nat :=
  civilToMin c * 60000

/-- ASCII digit character for `n < 10`. -/
def dchar (n : Nat) : Char :=
  Char.ofNat (48 + n)

/-- Numeric value of an ASCII digit character. -/
def dval (c : Char) : Nat :=
  c.toNat - 48

/-- ASCII digit test. -/
def isDig (c : Char) : Bool :=
  48 ≤ c.toNat && c.toNat ≤ 57

/-- Two-digit zero-padded rendering. -/
def pad2 (n : Nat) : List Char :=
  [dchar (n / 10 % 10), dchar (n % 10)]

/-- Four-digit zero-padded rendering (faithful for years up to 9999). -/
def pad4 (n : Nat) : List Char :=
  [dchar (n / 1000 % 10), dchar (n / 100 % 10), dchar (n / 10 % 10), dchar (n % 10)]

/-- Render a civil date-time in the default pattern. -/
def renderCivil (c : Civil) : List Char :=
  pad4 c.y ++ '-' :: pad2 c.m ++ '-' :: pad2 c.d ++ 'T' :: pad2 c.hh ++ ':' :: pad2 c.mi

/-- Parse a character list in the default pattern, validating ranges the way
date-fns `parse` does (month 1..12, day within the month, hour < 24,
minute < 60); out-of-shape input yields `none` (Invalid Date in the source,
which `parseDate` maps to `undefined`).  The model is restricted to the
epoch-forward year range 1970.. (filesystem modification times). -/
def parseCivilL (l : List Char) : Option Civil :=
  match l with
  | [y1, y2, y3, y4, s1, m1, m2, s2, d1, d2, s3, h1, h2, s4, n1, n2] =>
    if isDig y1 && isDig y2 && isDig y3 && isDig y4 &&
       isDig m1 && isDig m2 && isDig d1 && isDig d2 &&
       isDig h1 && isDig h2 && isDig n1 && isDig n2 &&
       s1 = '-' && s2 = '-' && s3 = 'T' && s4 = ':' then
      let y := dval y1 * 1000 + dval y2 * 100 + dval y3 * 10 + dval y4
      let m := dval m1 * 10 + dval m2
      let d := dval d1 * 10 + dval d2
      let h := dval h1 * 10 + dval h2
      let mi := dval n1 * 10 + dval n2
      if 1970 ≤ y && 1 ≤ m && m ≤ 12 && 1 ≤ d && d ≤ monthLen (isLeap y) m &&
         h < 24 && mi < 60 then
        some ⟨y, m, d, h, mi⟩
      else none
    else none
  | _ => none

/-! ### Settings (`ToolKitSettings`, `DEFAULT_SETTINGS`, `getIgnoreFolders`) -/

/-- The legacy union type of the `ignoreGlobalFolder` setting: a bare string
or a list of strings. -/
inductive IgnoreGlobal where
  | str (s : String)
  | arr (l : List String)
  deriving DecidableEq

/-- Model of `ToolKitSettings`. -/
structure Settings where
  mySetting : String
  «renaming» : Bool
  dateFormat : String
  headerUpdated : String
  minMinutesBetweenSaves : Nat
  ignoreGlobalFolder : Option IgnoreGlobal
  deriving DecidableEq

/-- The default `dateFormat` pattern (yyyy-MM-dd, literal T, HH:mm). -/
def defaultDateFormat : String :=
  ⟨['y', 'y', 'y', 'y', '-', 'M', 'M', '-', 'd', 'd', '\'', 'T', '\'', 'H', 'H', ':', 'm', 'm']⟩

/-- Model of `DEFAULT_SETTINGS`. -/
def DEFAULT_SETTINGS : Settings :=
  { mySetting := "default"
    «renaming» := false
    dateFormat := defaultDateFormat
    headerUpdated := "modified"
    minMinutesBetweenSaves := 1
    ignoreGlobalFolder := some (.arr []) }

/-- Model of `getIgnoreFolders`: normalize the legacy union (a bare string
becomes a one-element list, an absent setting the empty list). -/
def getIgnoreFolders (s : Settings) : List String :=
  match s.ignoreGlobalFolder with
  | some (.str v) => [v]
  | some (.arr l) => l
  | none => []

/-! ### Date Parser/Formatter (`parseDate`, `formatDate`) -/

/-- Model of `parseDate`.  A numeric input (epoch milliseconds) is wrapped
directly (`new Date(input)` — always yields a value).  A string input is
parsed against the date format — the model is specialized to the default
pattern — and unparseable or invalid input yields `none` (the source returns
`undefined` after its `isNaN` check or its catch-all). -/
def parseDate (_s : Settings) (input : Int ⊕ String) : Option Int :=
  match input with
  | .inl n => some n
  | .inr str => (parseCivilL str.data).map fun c => (civilToMs c : Int)

/-- Model of `formatDate`: render epoch milliseconds in the (default)
date format.  Faithful for nonnegative timestamps, as filesystem
modification times are. -/
def formatDate (_s : Settings) (t : Int) : String :=
  ⟨renderCivil (msToCivil t.toNat)⟩

/-! ### date-fns helpers used by the debounce decision -/

/-- Model of date-fns `add(date, { minutes: m })`: minutes are a fixed
60000 ms. -/
def dfAddMinutes (t : Int) (m : Nat) : Int :=
  t + (m : Int) * 60000

/-- Model of date-fns `isAfter(a, b)`: strict comparison of the timelines. -/
def dfIsAfter (a b : Int) : Bool :=
  decide (b < a)

/-! ### Timestamp Update Engine -/

/-- Model of `shouldUpdateValue`: write only when the file time is strictly
after the stored time plus the debounce window. -/
def shouldUpdateValue (s : Settings) (currentMtime updateHeader : Int) : Bool :=
  let nextUpdate := dfAddMinutes updateHeader s.minMinutesBetweenSaves
  dfIsAfter currentMtime nextUpdate

/-- A frontmatter block, restricted to the string-valued keys the engine
reads and writes; JavaScript object key order is preserved. -/
abbrev Frontmatter := List (String × String)

/-- Lookup of `frontmatter[key]` (`none` models `undefined`). -/
def fmGet (fm : Frontmatter) (k : String) : Option String :=
  (fm.find? fun e => e.1 = k).map (·.2)

/-- Assignment `frontmatter[key] = v`: replace in place when the key exists
(JavaScript objects keep the key position), append otherwise. -/
def fmSet (fm : Frontmatter) (k v : String) : Frontmatter :=
  match fm with
  | [] => [(k, v)]
  | e :: rest => if e.1 = k then (k, v) :: rest else e :: fmSet rest k v

/-- JavaScript falsiness of `frontmatter[key]` for a string-or-undefined
value: `undefined` and the empty string are falsy. -/
def jsFalsyStr : Option String → Bool
  | none => true
  | some v => v = ""

/-- Model of the mutation callback passed to `processFrontMatter`
(`handleFileChange`, lines 164–190): parse the file mtime (numeric — always
succeeds), then either first-write/repair (key falsy or stored value
unparseable) or debounce-gated update. -/
def mutateFm (s : Settings) (mtimeVal : Int) (fm : Frontmatter) : Frontmatter :=
  let updatedKey := s.headerUpdated
  match parseDate s (.inl mtimeVal) with
  | none => fm
  | some mTime =>
    let stored := fmGet fm updatedKey
    let currentMTimeOnFile := stored.bind fun v => parseDate s (.inr v)
    if jsFalsyStr stored then fmSet fm updatedKey (formatDate s mTime)
    else
      match currentMTimeOnFile with
      | none => fmSet fm updatedKey (formatDate s mTime)
      | some cur =>
        if shouldUpdateValue s mTime cur then fmSet fm updatedKey (formatDate s mTime)
        else fm

/-! ### Eligibility Filter and `handleFileChange` -/

/-- Model of a `TFile` record: path, extension, name, readable content and
the filesystem modification time (`stat.mtime`, epoch milliseconds). -/
structure TFileM where
  path : String
  extension : String
  name : String
  content : String
  mtime : Int
  deriving DecidableEq

/-- Model of `TAbstractFile`: a file (has `stat`) or a folder. -/
inductive TAbstractFileM where
  | tfile (f : TFileM)
  | tfolder (path : String)
  deriving DecidableEq

/-- Model of the `isTFile` type guard (`"stat" in value`). -/
def isTFile : TAbstractFileM → Bool
  | .tfile _ => true
  | .tfolder _ => false

/-- Model of `isExcalidrawFile`: the globally injected capability hook, when
present; an absent integration always reports `false`. -/
def isExcalidrawFile (ea : Option (TFileM → Bool)) (f : TFileM) : Bool :=
  match ea with
  | none => false
  | some check => check f

/-- Model of `shouldFileBeIgnored` (the Eligibility Filter), in source
order: empty path, non-markdown extension, the reserved `Canvas.md` name,
whitespace-only content, Excalidraw ownership, ignored-folder prefix. -/
def shouldFileBeIgnored (s : Settings) (ea : Option (TFileM → Bool)) (f : TFileM) : Bool :=
  if f.path = "" then true
  else if f.extension ≠ "md" then true
  else if f.name = "Canvas.md" then true
  else if (jsTrim f.content.data).length = 0 then true
  else if isExcalidrawFile ea f then true
  else (getIgnoreFolders s).any fun ignoreItem => jsStartsWith f.path.data ignoreItem.data

/-- An exception thrown by the host's `processFrontMatter` primitive. -/
structure HostErr where
  name : String
  message : String
  deriving DecidableEq

/-- The outcome union of `handleFileChange`. -/
inductive HFCStatus where
  | ok
  | ignored
  | error (e : HostErr)
  deriving DecidableEq

/-- Observable result of one `handleFileChange` run: the outcome, the
frontmatter block produced by the mutation callback (`none` when no
mutation ran), and the user-visible notices emitted. -/
structure HFCResult where
  status : HFCStatus
  written : Option Frontmatter
  notices : List String
  deriving DecidableEq

/-- The warning text built in the `YAMLParseError` handler (exact template
literal of the source, tabs included). -/
def errNotice (path msg : String) : String :=
  "Update time on edit failed\n\tMalformed frontamtter on this file : " ++ path
    ++ "\n\t\n\t" ++ msg

/-- Model of `handleFileChange`.  The host's `processFrontMatter` primitive
is abstracted as `host`: either the parsed frontmatter block (the callback
then runs on it) or the exception it throws.  Only a `YAMLParseError` is
reported; any other exception is swallowed and the function still returns
`ok`. -/
def handleFileChange (s : Settings) (ea : Option (TFileM → Bool))
    (af : TAbstractFileM) (host : Except HostErr Frontmatter) : HFCResult :=
  match af with
  | .tfolder _ => ⟨.ignored, none, []⟩
  | .tfile f =>
    if shouldFileBeIgnored s ea f then ⟨.ignored, none, []⟩
    else
      match host with
      | .ok fm => ⟨.ok, some (mutateFm s f.mtime fm), []⟩
      | .error e =>
        if e.name = "YAMLParseError" then
          ⟨.error e, none, [errNotice f.path e.message]⟩
        else ⟨.ok, none, []⟩

/-! ### Link Normalizer -/

/-- The link-index entry for one document: `Object.entries` of the host's
resolved-links record, i.e. target path / reference count pairs in the
record's iteration order. -/
abbrev LinkIndex := List (String × Nat)

/-- Character class of the `ref` capture group `[^|\]]+`. -/
def refChar (c : Char) : Bool :=
  c ≠ '|' && c ≠ ']'

/-- Character class of the `alias` capture group `[^\]]+`. -/
def aliasChar (c : Char) : Bool :=
  c ≠ ']'

/-- Attempt to match the embed regex `!\[\[([^|\]]+)(?:\|([^\]]+))?\]\]` at
the head of the input.  Returns the `ref` capture, the optional `alias`
capture and the rest of the input after the match.  The greedy character
classes make the match deterministic: each run must end at the first
excluded character, so no backtracking can succeed where this fails. -/
def tryEmbedMatch (l : List Char) : Option (List Char × Option (List Char) × List Char) :=
  match l with
  | '!' :: '[' :: '[' :: rest =>
    let url := rest.takeWhile refChar
    let r1 := rest.dropWhile refChar
    if url.isEmpty then none
    else
      match r1 with
      | ']' :: ']' :: rem => some (url, none, rem)
      | '|' :: r2 =>
        let alt := r2.takeWhile aliasChar
        let r3 := r2.dropWhile aliasChar
        if alt.isEmpty then none
        else
          match r3 with
          | ']' :: ']' :: rem => some (url, some alt, rem)
          | _ => none
      | _ => none
  | _ => none

/-- Model of the resolution loop: the first indexed target path (in
iteration order) containing `url` as a substring, or `url` unchanged. -/
def resolveUrl (files : LinkIndex) (url : List Char) : List Char :=
  match files.find? fun e => jsIncludes e.1.data url with
  | some e => e.1.data
  | none => url

/-- Model of JavaScript `str.replace(" ", "%20")` (string pattern: only the
first occurrence is replaced). -/
def encodeFirstSpace : List Char → List Char
  | [] => []
  | c :: rest =>
    if c = ' ' then '%' :: '2' :: '0' :: rest else c :: encodeFirstSpace rest

/-- The replacement produced for one regex match: a missing alias becomes
the empty string, and the resolved url has its first space encoded. -/
def renderEmbed (files : LinkIndex) (url : List Char) (alt : Option (List Char)) : List Char :=
  '!' :: '[' :: (alt.getD []) ++ ']' :: '(' :: encodeFirstSpace (resolveUrl files url) ++ [')']

/-- The global-regex replacement scan: try a match at every position, emit
the replacement and continue after the match, else move one character
forward.  Fuel-driven (the input length suffices: every step consumes at
least one character). -/
def scanAux (files : LinkIndex) : Nat → List Char → List Char
  | 0, l => l
  | _ + 1, [] => []
  | fuel + 1, c :: rest =>
    match tryEmbedMatch (c :: rest) with
    | some (url, alt, rem) => renderEmbed files url alt ++ scanAux files fuel rem
    | none => c :: scanAux files fuel rest

/-- Model of `docContent.replace(/\!\[\[([^|\]]+)(?:\|([^\]]+))?\]\]/g, ...)`
with the replacement function of the command body. -/
def rewriteDoc (files : LinkIndex) (doc : String) : String :=
  ⟨scanAux files doc.data.length doc.data⟩

/-- Model of `getFiles`: scan the resolved-links entries for the active
document's path; `none` models the `null` fall-through. -/
def getFiles (resolvedLinks : List (String × LinkIndex)) (currentPath : String) :
    Option LinkIndex :=
  (resolvedLinks.find? fun e => e.1 = currentPath).map (·.2)

/-- Model of the `rename-all-image-url` command body's effect on the
document text: when the link index has no entry for the active document the
text is left unchanged, otherwise the whole document is rewritten. -/
def renameAllImageUrl (resolvedLinks : List (String × LinkIndex))
    (currentPath : String) (doc : String) : String :=
  match getFiles resolvedLinks currentPath with
  | none => doc
  | some files => rewriteDoc files doc

/-! ### Document decompositions for the embed rewrite

A document is viewed as plain-text segments interleaved with embeds.  These
definitions only serve to state the rewrite theorem over documents with any
number of embed occurrences; the side condition `docOk` (each plain segment
starts no regex match, given what follows it) is decidable so that concrete
documents can be checked by evaluation. -/

/-- One occurrence of the embed pattern: `![[url]]` or `![[url|alias]]`. -/
inductive Embed where
  | noalias (url : List Char)
  | withalias (url alt : List Char)
  deriving DecidableEq

/-- The literal text of an embed occurrence. -/
def embedText : Embed → List Char
  | .noalias url => '!' :: '[' :: '[' :: (url ++ [']', ']'])
  | .withalias url alt => '!' :: '[' :: '[' :: (url ++ '|' :: (alt ++ [']', ']']))

/-- The replacement the command produces for an embed occurrence. -/
def embedRepl (files : LinkIndex) : Embed → List Char
  | .noalias url => renderEmbed files url none
  | .withalias url alt => renderEmbed files url (some alt)

/-- The captures of an embed are nonempty and stay inside their regex
character classes. -/
def validEmbed : Embed → Bool
  | .noalias url => !url.isEmpty && url.all refChar
  | .withalias url alt =>
    !url.isEmpty && !alt.isEmpty && url.all refChar && alt.all aliasChar

/-- The document text of a decomposition: each plain segment followed by its
embed, then the trailing plain segment. -/
def docText : List (List Char × Embed) → List Char → List Char
  | [], tail => tail
  | (pre, e) :: rest, tail => pre ++ (embedText e ++ docText rest tail)

/-- The fully rewritten text: every embed occurrence replaced, plain
segments kept. -/
def docRepl (files : LinkIndex) : List (List Char × Embed) → List Char → List Char
  | [], tail => tail
  | (pre, e) :: rest, tail => pre ++ (embedRepl files e ++ docRepl files rest tail)

/-- No match of the embed regex starts at any position inside `l`, given
that `rest` follows it in the document. -/
def noMatchAt (l rest : List Char) : Bool :=
  l.tails.all fun s => s.isEmpty || (tryEmbedMatch (s ++ rest)).isNone

/-- A decomposition is faithful: every plain segment starts no match (so
the listed embeds are exactly the occurrences of the pattern), and every
embed is well-formed. -/
def docOk : List (List Char × Embed) → List Char → Bool
  | [], tail => noMatchAt tail []
  | (pre, e) :: rest, tail =>
    noMatchAt pre (embedText e ++ docText rest tail) && validEmbed e && docOk rest tail

/-! ### Claims -/

/-- C9: `getIgnoreFolders` reads a bare-string `ignoreGlobalFolder` exactly
like the one-element list holding that string, and an absent setting as the
empty list. -/
theorem c9_legacy_normalization (s : Settings) (v : String) :
    getIgnoreFolders { s with ignoreGlobalFolder := some (.str v) } =
      getIgnoreFolders { s with ignoreGlobalFolder := some (.arr [v]) } ∧
    getIgnoreFolders { s with ignoreGlobalFolder := none } = [] :=
  ⟨rfl, rfl⟩

/-- C7: `parseDate` on numeric input always yields a value, and on a string
the parser cannot make sense of it yields `none` (the source's `undefined`)
rather than an error — the model is total, mirroring the `isNaN` check and
the catch-all of the source. -/
theorem c7_parse_totality :
    (∀ (s : Settings) (n : Int), parseDate s (.inl n) = some n) ∧
    (∀ (s : Settings) (str : String),
      parseCivilL str.data = none → parseDate s (.inr str) = none) := by
  refine ⟨fun s n => rfl, fun s str h => ?_⟩
  simp [parseDate, h]

theorem c7_parse_totality_witness :
    parseDate DEFAULT_SETTINGS (.inl 1704103440000) = some 1704103440000 ∧
    parseDate DEFAULT_SETTINGS (.inr "not a date") = none :=
  ⟨c7_parse_totality.1 DEFAULT_SETTINGS 1704103440000,
   c7_parse_totality.2 DEFAULT_SETTINGS "not a date" (by decide)⟩

/-- C2: when the stored value at `settings.headerUpdated` is absent or empty
(JavaScript-falsy) or does not parse, the mutation writes
`formatDate(mTime)` unconditionally — the first-write/repair branch, which
silently overwrites a malformed stored value. -/
theorem c2_first_write (s : Settings) (fm : Frontmatter) (mt : Int)
    (h : jsFalsyStr (fmGet fm s.headerUpdated) = true ∨
      ((fmGet fm s.headerUpdated).bind fun v => parseDate s (.inr v)) = none) :
    mutateFm s mt fm = fmSet fm s.headerUpdated (formatDate s mt) := by
  rcases hst : fmGet fm s.headerUpdated with _ | v
  · unfold mutateFm
    rw [show parseDate s (.inl mt) = some mt from rfl]
    simp [hst, jsFalsyStr]
  · rw [hst] at h
    unfold mutateFm
    rw [show parseDate s (.inl mt) = some mt from rfl]
    rcases h with h | h
    · simp [hst, h]
    · simp only [Option.some_bind] at h
      simp only [hst, Option.some_bind, h]
      split <;> rfl

theorem c2_first_write_witness :
    mutateFm DEFAULT_SETTINGS 1704103440000 [("modified", "junk")] =
      fmSet [("modified", "junk")] "modified"
        (formatDate DEFAULT_SETTINGS 1704103440000) :=
  c2_first_write DEFAULT_SETTINGS [("modified", "junk")] 1704103440000 (by decide)

/-- C1: with a stored, parseable timestamp `t0` and debounce window `m`
minutes, the mutation writes `formatDate(mTime)` exactly when `mTime` is
strictly after `t0 + m` minutes; in particular nothing is written when
`mTime` equals `t0 + m` minutes. -/
theorem c1_debounce (s : Settings) (fm : Frontmatter) (mt t0 : Int) (v : String)
    (hget : fmGet fm s.headerUpdated = some v) (hne : v ≠ "")
    (hparse : parseDate s (.inr v) = some t0) :
    mutateFm s mt fm =
      (if t0 + (s.minMinutesBetweenSaves : Int) * 60000 < mt
        then fmSet fm s.headerUpdated (formatDate s mt) else fm) ∧
    (mt = t0 + (s.minMinutesBetweenSaves : Int) * 60000 → mutateFm s mt fm = fm) := by
  have hmain : mutateFm s mt fm =
      (if t0 + (s.minMinutesBetweenSaves : Int) * 60000 < mt
        then fmSet fm s.headerUpdated (formatDate s mt) else fm) := by
    unfold mutateFm
    rw [show parseDate s (.inl mt) = some mt from rfl]
    simp only [hget, Option.some_bind, hparse, jsFalsyStr, shouldUpdateValue,
      dfIsAfter, dfAddMinutes, hne]
    simp
  refine ⟨hmain, fun heq => ?_⟩
  rw [hmain, heq]
  simp

theorem c1_debounce_witness :
    (mutateFm { DEFAULT_SETTINGS with minMinutesBetweenSaves := 5 } 1704103560000
        [("modified", "2024-01-01T10:00")] =
      if (1704103200000 : Int) + (5 : Nat) * 60000 < 1704103560000
        then fmSet [("modified", "2024-01-01T10:00")] "modified"
          (formatDate { DEFAULT_SETTINGS with minMinutesBetweenSaves := 5 } 1704103560000)
        else [("modified", "2024-01-01T10:00")]) ∧
    ((1704103560000 : Int) = 1704103200000 + (5 : Nat) * 60000 →
      mutateFm { DEFAULT_SETTINGS with minMinutesBetweenSaves := 5 } 1704103560000
        [("modified", "2024-01-01T10:00")] = [("modified", "2024-01-01T10:00")]) :=
  c1_debounce { DEFAULT_SETTINGS with minMinutesBetweenSaves := 5 }
    [("modified", "2024-01-01T10:00")] 1704103560000 1704103200000
    "2024-01-01T10:00" (by decide) (by decide) (by decide)

/-- C3: every file the Eligibility Filter rejects — empty path, non-`md`
extension, the reserved `Canvas.md` name, whitespace-only content,
Excalidraw ownership, or an ignored-folder prefix — makes
`handleFileChange` return `ignored` with no metadata mutation, whatever the
host block and debounce situation. -/
theorem c3_ignore_precedence (s : Settings) (ea : Option (TFileM → Bool))
    (f : TFileM) (host : Except HostErr Frontmatter)
    (h : f.path = "" ∨ f.extension ≠ "md" ∨ f.name = "Canvas.md" ∨
      (jsTrim f.content.data).length = 0 ∨ isExcalidrawFile ea f = true ∨
      ∃ ig ∈ getIgnoreFolders s, jsStartsWith f.path.data ig.data = true) :
    handleFileChange s ea (.tfile f) host = ⟨.ignored, none, []⟩ := by
  have hig : shouldFileBeIgnored s ea f = true := by
    unfold shouldFileBeIgnored
    split_ifs with h1 h2 h3 h4 h5
    · rfl
    · rfl
    · rfl
    · rfl
    · rfl
    · rcases h with h | h | h | h | h | ⟨ig, hmem, hsw⟩ <;>
        first
        | exact absurd h (by simp_all)
        | exact List.any_eq_true.mpr ⟨ig, hmem, hsw⟩
  simp [handleFileChange, hig]

theorem c3_ignore_precedence_witness :
    handleFileChange DEFAULT_SETTINGS none
      (.tfile ⟨"notes/a.txt", "txt", "a.txt", "hello", 1704103440000⟩)
      (.ok [("modified", "junk")]) = ⟨.ignored, none, []⟩ :=
  c3_ignore_precedence DEFAULT_SETTINGS none
    ⟨"notes/a.txt", "txt", "a.txt", "hello", 1704103440000⟩
    (.ok [("modified", "junk")]) (by decide)

/-- C4: when the host's metadata primitive throws a `YAMLParseError` on an
eligible file, `handleFileChange` writes nothing, emits exactly one warning
notice that contains the file path and the underlying message, and returns
the error outcome. -/
theorem c4_yaml_error (s : Settings) (ea : Option (TFileM → Bool)) (f : TFileM)
    (e : HostErr) (hig : shouldFileBeIgnored s ea f = false)
    (hname : e.name = "YAMLParseError") :
    handleFileChange s ea (.tfile f) (.error e) =
      ⟨.error e, none, [errNotice f.path e.message]⟩ ∧
    ContainsSub (errNotice f.path e.message).data f.path.data ∧
    ContainsSub (errNotice f.path e.message).data e.message.data := by
  refine ⟨by simp [handleFileChange, hig, hname], ?_, ?_⟩
  · exact ⟨("Update time on edit failed\n\tMalformed frontamtter on this file : ").data,
      ("\n\t\n\t" ++ e.message).data, by simp [errNotice, String.data_append]⟩
  · exact ⟨("Update time on edit failed\n\tMalformed frontamtter on this file : ").data
      ++ f.path.data ++ ("\n\t\n\t").data, [], by simp [errNotice, String.data_append]⟩

theorem c4_yaml_error_witness :
    (handleFileChange DEFAULT_SETTINGS none
        (.tfile ⟨"notes/a.md", "md", "a.md", "hello", 0⟩)
        (.error ⟨"YAMLParseError", "bad indent"⟩) =
      ⟨.error ⟨"YAMLParseError", "bad indent"⟩, none,
        [errNotice "notes/a.md" "bad indent"]⟩) ∧
    ContainsSub (errNotice "notes/a.md" "bad indent").data "notes/a.md".data ∧
    ContainsSub (errNotice "notes/a.md" "bad indent").data "bad indent".data :=
  c4_yaml_error DEFAULT_SETTINGS none ⟨"notes/a.md", "md", "a.md", "hello", 0⟩
    ⟨"YAMLParseError", "bad indent"⟩ (by decide) (by decide)

/-- C10: an exception from the metadata primitive whose name is not
`YAMLParseError` is swallowed: no notice, no error outcome, and the run
still reports `ok` although nothing was written. -/
theorem c10_swallowed_error (s : Settings) (ea : Option (TFileM → Bool))
    (f : TFileM) (e : HostErr) (hig : shouldFileBeIgnored s ea f = false)
    (hname : e.name ≠ "YAMLParseError") :
    handleFileChange s ea (.tfile f) (.error e) = ⟨.ok, none, []⟩ := by
  simp [handleFileChange, hig, hname]

theorem c10_swallowed_error_witness :
    handleFileChange DEFAULT_SETTINGS none
      (.tfile ⟨"notes/a.md", "md", "a.md", "hello", 0⟩)
      (.error ⟨"TypeError", "boom"⟩) = ⟨.ok, none, []⟩ :=
  c10_swallowed_error DEFAULT_SETTINGS none
    ⟨"notes/a.md", "md", "a.md", "hello", 0⟩ ⟨"TypeError", "boom"⟩
    (by decide) (by decide)

/-- C8: when the link-resolution index has no entry for the active document
(`getFiles` yields `none`, in particular when no entry's key equals the
active path), the command leaves the document text unchanged. -/
theorem c8_no_index_entry :
    (∀ (rl : List (String × LinkIndex)) (cur doc : String),
      getFiles rl cur = none → renameAllImageUrl rl cur doc = doc) ∧
    (∀ (rl : List (String × LinkIndex)) (cur : String),
      (∀ e ∈ rl, e.1 ≠ cur) → getFiles rl cur = none) := by
  constructor
  · intro rl cur doc h
    simp [renameAllImageUrl, h]
  · intro rl cur h
    simp only [getFiles, Option.map_eq_none', List.find?_eq_none]
    intro e he
    simpa using h e he

theorem c8_no_index_entry_witness :
    renameAllImageUrl [("b.md", [("x.png", 1)])] "a.md" "![[x.png]]" = "![[x.png]]" :=
  c8_no_index_entry.1 [("b.md", [("x.png", 1)])] "a.md" "![[x.png]]" (by decide)

/-! ### Lemmas about the link-normalizer scanner -/

theorem takeWhile_app_of_all (p : Char → Bool) (l1 l2 : List Char)
    (h : ∀ c ∈ l1, p c = true) :
    (l1 ++ l2).takeWhile p = l1 ++ l2.takeWhile p := by
  induction l1 with
  | nil => simp
  | cons a t ih =>
    have ha := h a (by simp)
    have ht := ih fun c hc => h c (by simp [hc])
    simp [List.takeWhile_cons, ha, ht]

theorem dropWhile_app_of_all (p : Char → Bool) (l1 l2 : List Char)
    (h : ∀ c ∈ l1, p c = true) :
    (l1 ++ l2).dropWhile p = l2.dropWhile p := by
  induction l1 with
  | nil => simp
  | cons a t ih =>
    have ha := h a (by simp)
    have ht := ih fun c hc => h c (by simp [hc])
    simp [List.dropWhile_cons, ha, ht]

theorem scanAux_nil (files : LinkIndex) (fuel : Nat) :
    scanAux files fuel [] = [] := by
  cases fuel <;> rfl

theorem scanAux_cons_match (files : LinkIndex) (fuel : Nat) (c : Char)
    (rest url rem : List Char) (alt : Option (List Char))
    (h : tryEmbedMatch (c :: rest) = some (url, alt, rem)) :
    scanAux files (fuel + 1) (c :: rest) =
      renderEmbed files url alt ++ scanAux files fuel rem := by
  simp only [scanAux, h]

theorem tryEmbedMatch_cons (rest : List Char) :
    tryEmbedMatch ('!' :: '[' :: '[' :: rest) =
      (if (rest.takeWhile refChar).isEmpty then none
       else
         match rest.dropWhile refChar with
         | ']' :: ']' :: rem => some (rest.takeWhile refChar, none, rem)
         | '|' :: r2 =>
           if (r2.takeWhile aliasChar).isEmpty then none
           else
             match r2.dropWhile aliasChar with
             | ']' :: ']' :: rem =>
               some (rest.takeWhile refChar, some (r2.takeWhile aliasChar), rem)
             | _ => none
         | _ => none) :=
  rfl

theorem tryEmbedMatch_noalias (url rem : List Char) (hne : url ≠ [])
    (hchars : ∀ c ∈ url, refChar c = true) :
    tryEmbedMatch ('!' :: '[' :: '[' :: (url ++ (']' :: ']' :: rem))) =
      some (url, none, rem) := by
  rw [tryEmbedMatch_cons,
    takeWhile_app_of_all refChar url (']' :: ']' :: rem) hchars,
    dropWhile_app_of_all refChar url (']' :: ']' :: rem) hchars]
  simp [hne, List.takeWhile_cons, List.dropWhile_cons, refChar]

theorem tryEmbedMatch_alias (url alt rem : List Char) (hu : url ≠ []) (ha : alt ≠ [])
    (hchars : ∀ c ∈ url, refChar c = true)
    (hachars : ∀ c ∈ alt, aliasChar c = true) :
    tryEmbedMatch ('!' :: '[' :: '[' :: (url ++ '|' :: (alt ++ (']' :: ']' :: rem)))) =
      some (url, some alt, rem) := by
  rw [tryEmbedMatch_cons,
    takeWhile_app_of_all refChar url ('|' :: (alt ++ (']' :: ']' :: rem))) hchars,
    dropWhile_app_of_all refChar url ('|' :: (alt ++ (']' :: ']' :: rem))) hchars]
  have h1 : ('|' :: (alt ++ (']' :: ']' :: rem))).takeWhile refChar = [] := by
    simp [List.takeWhile_cons, refChar]
  have h2 : ('|' :: (alt ++ (']' :: ']' :: rem))).dropWhile refChar =
      '|' :: (alt ++ (']' :: ']' :: rem)) := by
    simp [List.dropWhile_cons, refChar]
  rw [h1, h2]
  simp [hu, ha,
    takeWhile_app_of_all aliasChar alt (']' :: ']' :: rem) hachars,
    dropWhile_app_of_all aliasChar alt (']' :: ']' :: rem) hachars,
    List.takeWhile_cons, List.dropWhile_cons, aliasChar]

theorem scanAux_cons_nomatch (files : LinkIndex) (fuel : Nat) (c : Char)
    (l : List Char) (h : tryEmbedMatch (c :: l) = none) :
    scanAux files (fuel + 1) (c :: l) = c :: scanAux files fuel l := by
  simp only [scanAux, h]

theorem noMatchAt_forall (l rest : List Char) (h : noMatchAt l rest = true) :
    ∀ a b, l = a ++ b → b ≠ [] → tryEmbedMatch (b ++ rest) = none := by
  intro a b hab hb
  have hmem : b ∈ l.tails := by
    rw [List.mem_tails]
    exact ⟨a, hab.symm⟩
  have hx := (List.all_eq_true.mp h) b hmem
  simp only [Bool.or_eq_true, List.isEmpty_iff, Option.isNone_iff_eq_none] at hx
  rcases hx with h1 | h1
  · exact absurd h1 hb
  · exact h1

theorem scanAux_passthrough (files : LinkIndex) :
    ∀ (pre rest : List Char),
      (∀ a b, pre = a ++ b → b ≠ [] → tryEmbedMatch (b ++ rest) = none) →
      ∀ fuel, pre.length ≤ fuel →
      scanAux files fuel (pre ++ rest) = pre ++ scanAux files (fuel - pre.length) rest := by
  intro pre
  induction pre with
  | nil =>
    intro rest h fuel hlen
    simp
  | cons c p ih =>
    intro rest h fuel hlen
    cases fuel with
    | zero =>
      simp at hlen
    | succ f =>
      have hlf : p.length ≤ f := by
        simp at hlen
        omega
      have hm : tryEmbedMatch (c :: (p ++ rest)) = none := by
        have hx := h [] (c :: p) rfl (by simp)
        simpa using hx
      rw [show (c :: p) ++ rest = c :: (p ++ rest) from rfl,
        scanAux_cons_nomatch files f c (p ++ rest) hm,
        ih rest (fun a b hab hb => h (c :: a) b (by simp [hab]) hb) f hlf]
      have hfl : (f + 1) - (c :: p).length = f - p.length := by
        simp
      rw [hfl]
      rfl

theorem embedText_length_pos (e : Embed) : 1 ≤ (embedText e).length := by
  rcases e with url | ⟨url, alt⟩ <;> simp [embedText]

theorem scanAux_docOk (files : LinkIndex) :
    ∀ (chunks : List (List Char × Embed)) (tail : List Char) (fuel : Nat),
      (docText chunks tail).length ≤ fuel → docOk chunks tail = true →
      scanAux files fuel (docText chunks tail) = docRepl files chunks tail := by
  intro chunks
  induction chunks with
  | nil =>
    intro tail fuel hlen hok
    have hnm := noMatchAt_forall tail [] hok
    have hx := scanAux_passthrough files tail [] hnm fuel (by simpa using hlen)
    simpa [scanAux_nil] using hx
  | cons hd rest ih =>
    obtain ⟨pre, e⟩ := hd
    intro tail fuel hlen hok
    simp only [docOk, Bool.and_eq_true] at hok
    obtain ⟨⟨hnm, hval⟩, hrest⟩ := hok
    have hnm' := noMatchAt_forall pre (embedText e ++ docText rest tail) hnm
    rw [show docText ((pre, e) :: rest) tail =
      pre ++ (embedText e ++ docText rest tail) from rfl] at hlen ⊢
    have hlenx : pre.length + ((embedText e).length + (docText rest tail).length) ≤ fuel := by
      simpa [List.length_append] using hlen
    have hemb : 1 ≤ (embedText e).length := embedText_length_pos e
    rw [scanAux_passthrough files pre _ hnm' fuel (by omega)]
    obtain ⟨f3, hf3⟩ : ∃ f3, fuel - pre.length = f3 + 1 :=
      ⟨fuel - pre.length - 1, by omega⟩
    have hf3len : (docText rest tail).length ≤ f3 := by omega
    rw [hf3]
    rcases e with url | ⟨url, alt⟩
    · simp only [validEmbed, Bool.and_eq_true, Bool.not_eq_true',
        List.isEmpty_eq_false, List.all_eq_true] at hval
      obtain ⟨hne, hall⟩ := hval
      have hme : embedText (.noalias url) ++ docText rest tail =
          '!' :: '[' :: '[' :: (url ++ (']' :: ']' :: docText rest tail)) := by
        simp [embedText]
      rw [hme, scanAux_cons_match files f3 '!' _ url (docText rest tail) none
          (tryEmbedMatch_noalias url (docText rest tail) hne hall),
        ih tail f3 hf3len hrest]
      rfl
    · simp only [validEmbed, Bool.and_eq_true, Bool.not_eq_true',
        List.isEmpty_eq_false, List.all_eq_true] at hval
      obtain ⟨⟨⟨hu, ha⟩, hallu⟩, halla⟩ := hval
      have hme : embedText (.withalias url alt) ++ docText rest tail =
          '!' :: '[' :: '[' :: (url ++ '|' :: (alt ++ (']' :: ']' :: docText rest tail))) := by
        simp [embedText]
      rw [hme, scanAux_cons_match files f3 '!' _ url (docText rest tail) (some alt)
          (tryEmbedMatch_alias url alt (docText rest tail) hu ha hallu halla),
        ih tail f3 hf3len hrest]
      rfl

theorem containsSub_cons (c : Char) (t ndl : List Char) :
    ContainsSub (c :: t) ndl ↔ (ndl <+: c :: t) ∨ ContainsSub t ndl := by
  constructor
  · rintro ⟨a, b, hab⟩
    cases a with
    | nil => exact .inl ⟨b, by simpa using hab.symm⟩
    | cons a0 a' =>
      right
      rw [List.cons_append, List.cons_append] at hab
      exact ⟨a', b, (List.cons.injEq _ _ _ _ ▸ hab).2⟩
  · rintro (⟨b, hb⟩ | ⟨a, b, hab⟩)
    · exact ⟨[], b, by simp [hb.symm]⟩
    · exact ⟨c :: a, b, by simp [hab]⟩

theorem jsIncludes_iff_containsSub (hay ndl : List Char) :
    jsIncludes hay ndl = true ↔ ContainsSub hay ndl := by
  induction hay with
  | nil =>
    simp only [jsIncludes, List.isEmpty_iff, ContainsSub]
    constructor
    · rintro rfl; exact ⟨[], [], rfl⟩
    · rintro ⟨a, b, hab⟩
      rcases a <;> rcases ndl <;> simp_all
  | cons c t ih =>
    simp only [jsIncludes, Bool.or_eq_true, containsSub_cons, ih]
    constructor
    · rintro (h | h)
      · exact .inl (List.isPrefixOf_iff_prefix.mp h)
      · exact .inr h
    · rintro (h | h)
      · exact .inl (List.isPrefixOf_iff_prefix.mpr h)
      · exact .inr h

/-- C5: the embed rewrite.  For a document decomposed into plain segments
(starting no regex match) interleaved with any number of embed occurrences,
the command rewrites every occurrence in place: `![[url]]` becomes
`![](enc)` and `![[url|alias]]` becomes `![alias](enc)`, where `enc` is the
resolved path with only its first space encoded; the resolution takes the
first link-index path (iteration order) containing the reference as a
substring (`jsIncludes` agrees with substring containment) and passes the
reference through unchanged when nothing matches; the two end-to-end
examples of the specification and a two-embed document are included
literally. -/
theorem c5_embed_rewrite :
    (∀ (files : LinkIndex) (chunks : List (List Char × Embed)) (tail : List Char),
      docOk chunks tail = true →
      rewriteDoc files ⟨docText chunks tail⟩ = ⟨docRepl files chunks tail⟩) ∧
    (∀ (files : LinkIndex) (url : List Char),
      (∀ e ∈ files, jsIncludes e.1.data url = false) → resolveUrl files url = url) ∧
    (∀ (pre : LinkIndex) (e : String × Nat) (post : LinkIndex) (url : List Char),
      (∀ x ∈ pre, jsIncludes x.1.data url = false) → jsIncludes e.1.data url = true →
      resolveUrl (pre ++ e :: post) url = e.1.data) ∧
    (∀ (hay ndl : List Char), jsIncludes hay ndl = true ↔ ContainsSub hay ndl) ∧
    (∀ u1 u2 : List Char, (∀ c ∈ u1, ¬c = ' ') →
      encodeFirstSpace (u1 ++ ' ' :: u2) = u1 ++ '%' :: '2' :: '0' :: u2) ∧
    (∀ u : List Char, (∀ c ∈ u, ¬c = ' ') → encodeFirstSpace u = u) ∧
    rewriteDoc [("img 1.png", 1)] "![[img 1.png]]" = "![](img%201.png)" ∧
    rewriteDoc [("somewhere/else.png", 2)] "![[photo|My Photo]]" = "![My Photo](photo)" ∧
    rewriteDoc [("a/b.png", 1)] "xx ![[b.png]] and ![[img|Alt]] yy" =
      "xx ![](a/b.png) and ![Alt](img) yy" := by
  refine ⟨?_, ?_, ?_, jsIncludes_iff_containsSub, ?_, ?_, by decide, by decide, by decide⟩
  · intro files chunks tail hok
    show (⟨scanAux files (docText chunks tail).length (docText chunks tail)⟩ : String) = _
    rw [scanAux_docOk files chunks tail (docText chunks tail).length (le_refl _) hok]
  · intro files url h
    have hf : files.find? (fun e => jsIncludes e.1.data url) = none :=
      List.find?_eq_none.mpr fun e he => by simp [h e he]
    simp [resolveUrl, hf]
  · intro pre e post url hpre he
    have hf : (pre ++ e :: post).find? (fun x => jsIncludes x.1.data url) = some e := by
      induction pre with
      | nil => simp [List.find?_cons, he]
      | cons p t ih =>
        rw [List.cons_append, List.find?_cons_of_neg _ (by simp [hpre p (by simp)])]
        exact ih fun x hx => hpre x (by simp [hx])
    simp [resolveUrl, hf]
  · intro u1 u2 h
    induction u1 with
    | nil => simp [encodeFirstSpace]
    | cons a t ih =>
      have ha := h a (by simp)
      have ht := ih fun c hc => h c (by simp [hc])
      simp only [List.cons_append, encodeFirstSpace, if_neg ha]
      exact congrArg (List.cons a) ht
  · intro u h
    induction u with
    | nil => rfl
    | cons a t ih =>
      have ha := h a (by simp)
      have ht := ih fun c hc => h c (by simp [hc])
      simp only [encodeFirstSpace, if_neg ha]
      exact congrArg (List.cons a) ht

theorem c5_embed_rewrite_witness :
    rewriteDoc [("a/b.png", 1)]
      ⟨docText [("xx ".data, .noalias "b.png".data),
        (" mid ".data, .withalias "photo".data "My Photo".data)] " yy".data⟩ =
      ⟨docRepl [("a/b.png", 1)] [("xx ".data, .noalias "b.png".data),
        (" mid ".data, .withalias "photo".data "My Photo".data)] " yy".data⟩ ∧
    encodeFirstSpace ("img".data ++ ' ' :: "1.png".data) =
      "img".data ++ '%' :: '2' :: '0' :: "1.png".data :=
  ⟨c5_embed_rewrite.1 [("a/b.png", 1)]
      [("xx ".data, .noalias "b.png".data),
        (" mid ".data, .withalias "photo".data "My Photo".data)] " yy".data (by decide),
   c5_embed_rewrite.2.2.2.2.1 "img".data "1.png".data (by decide)⟩


/-! ### Lemmas about the calendar decomposition -/

theorem daysInYear_ge (y : Nat) : 365 ≤ daysInYear y := by
  unfold daysInYear
  split <;> omega

theorem daysFromTo_self (y : Nat) : daysFromTo y y = 0 := by
  simp [daysFromTo, daysUpTo]

theorem daysFromTo_succ_left (a b : Nat) (h : a < b) :
    daysFromTo a b = daysInYear a + daysFromTo (a + 1) b := by
  unfold daysFromTo
  have hb : b - a = (b - (a + 1)) + 1 := by omega
  rw [hb]
  rfl

theorem daysUpTo_ge (k y : Nat) : 365 * k ≤ daysUpTo k y := by
  induction k generalizing y with
  | zero => simp [daysUpTo]
  | succ k ih =>
    have := daysInYear_ge y
    have := ih (y + 1)
    simp only [daysUpTo]
    omega

theorem yearAux_spec (fuel : Nat) : ∀ (y days : Nat), days ≤ fuel →
    daysFromTo y (yearAux fuel y days).1 + (yearAux fuel y days).2 = days ∧
    (yearAux fuel y days).2 < daysInYear (yearAux fuel y days).1 ∧
    y ≤ (yearAux fuel y days).1 := by
  induction fuel with
  | zero =>
    intro y days hday
    have hd0 : days = 0 := by omega
    subst hd0
    refine ⟨by simp [yearAux, daysFromTo_self], ?_, le_refl y⟩
    have := daysInYear_ge y
    simpa [yearAux] using by omega
  | succ fuel ih =>
    intro y days hday
    by_cases hlt : days < daysInYear y
    · simp only [yearAux, if_pos hlt]
      exact ⟨by simp [daysFromTo_self], hlt, le_refl y⟩
    · have hge := daysInYear_ge y
      have hrec := ih (y + 1) (days - daysInYear y) (by omega)
      simp only [yearAux, if_neg hlt]
      set r := yearAux fuel (y + 1) (days - daysInYear y) with hr
      have hlt' : y < r.1 := by omega
      refine ⟨?_, hrec.2.1, by omega⟩
      rw [daysFromTo_succ_left y r.1 hlt']
      omega
theorem daysInYear_le (y : Nat) : daysInYear y ≤ 366 := by
  unfold daysInYear
  split <;> omega

set_option maxRecDepth 4000 in
theorem monthAux_spec : ∀ doy, doy < 366 → ∀ leap : Bool,
    (leap = false → doy < 365) →
    daysBeforeMonth leap (monthAux 11 leap 1 doy).1 + ((monthAux 11 leap 1 doy).2 - 1) = doy ∧
    1 ≤ (monthAux 11 leap 1 doy).1 ∧ (monthAux 11 leap 1 doy).1 ≤ 12 ∧
    1 ≤ (monthAux 11 leap 1 doy).2 ∧
    (monthAux 11 leap 1 doy).2 ≤ monthLen leap (monthAux 11 leap 1 doy).1 := by
  decide

theorem civilToMin_msToCivil (n : Nat) : civilToMin (msToCivil n) = n / 60000 := by
  obtain ⟨hsum, hlt, hge⟩ :=
    yearAux_spec (n / 60000 / 1440) 1970 (n / 60000 / 1440) (le_refl _)
  have hdoy366 : (yearAux (n / 60000 / 1440) 1970 (n / 60000 / 1440)).2 < 366 :=
    lt_of_lt_of_le hlt (daysInYear_le _)
  have hfalse : isLeap (yearAux (n / 60000 / 1440) 1970 (n / 60000 / 1440)).1 = false →
      (yearAux (n / 60000 / 1440) 1970 (n / 60000 / 1440)).2 < 365 := by
    intro hf
    have hdy : daysInYear (yearAux (n / 60000 / 1440) 1970 (n / 60000 / 1440)).1 = 365 := by
      simp [daysInYear, hf]
    omega
  obtain ⟨hm1, hm2, hm3, hm4, hm5⟩ :=
    monthAux_spec _ hdoy366 (isLeap (yearAux (n / 60000 / 1440) 1970 (n / 60000 / 1440)).1) hfalse
  have hms : msToCivil n =
      ⟨(yearAux (n / 60000 / 1440) 1970 (n / 60000 / 1440)).1,
        (monthAux 11 (isLeap (yearAux (n / 60000 / 1440) 1970 (n / 60000 / 1440)).1) 1
          (yearAux (n / 60000 / 1440) 1970 (n / 60000 / 1440)).2).1,
        (monthAux 11 (isLeap (yearAux (n / 60000 / 1440) 1970 (n / 60000 / 1440)).1) 1
          (yearAux (n / 60000 / 1440) 1970 (n / 60000 / 1440)).2).2,
        n / 60000 % 1440 / 60, n / 60000 % 1440 % 60⟩ := rfl
  rw [hms]
  simp only [civilToMin]
  omega

theorem msToCivil_ranges (n : Nat) (hn : n < 253234080000000) :
    1970 ≤ (msToCivil n).y ∧ (msToCivil n).y ≤ 9999 ∧
    1 ≤ (msToCivil n).m ∧ (msToCivil n).m ≤ 12 ∧
    1 ≤ (msToCivil n).d ∧ (msToCivil n).d ≤ monthLen (isLeap (msToCivil n).y) (msToCivil n).m ∧
    (msToCivil n).hh < 24 ∧ (msToCivil n).mi < 60 := by
  obtain ⟨hsum, hlt, hge⟩ :=
    yearAux_spec (n / 60000 / 1440) 1970 (n / 60000 / 1440) (le_refl _)
  have hdoy366 : (yearAux (n / 60000 / 1440) 1970 (n / 60000 / 1440)).2 < 366 :=
    lt_of_lt_of_le hlt (daysInYear_le _)
  have hfalse : isLeap (yearAux (n / 60000 / 1440) 1970 (n / 60000 / 1440)).1 = false →
      (yearAux (n / 60000 / 1440) 1970 (n / 60000 / 1440)).2 < 365 := by
    intro hf
    have hdy : daysInYear (yearAux (n / 60000 / 1440) 1970 (n / 60000 / 1440)).1 = 365 := by
      simp [daysInYear, hf]
    omega
  obtain ⟨hm1, hm2, hm3, hm4, hm5⟩ :=
    monthAux_spec _ hdoy366 (isLeap (yearAux (n / 60000 / 1440) 1970 (n / 60000 / 1440)).1) hfalse
  have hup := daysUpTo_ge ((yearAux (n / 60000 / 1440) 1970 (n / 60000 / 1440)).1 - 1970) 1970
  have hfr : daysFromTo 1970 (yearAux (n / 60000 / 1440) 1970 (n / 60000 / 1440)).1 =
      daysUpTo ((yearAux (n / 60000 / 1440) 1970 (n / 60000 / 1440)).1 - 1970) 1970 := rfl
  refine ⟨hge, ?_, hm2, hm3, hm4, hm5, ?_, ?_⟩
  · show (yearAux (n / 60000 / 1440) 1970 (n / 60000 / 1440)).1 ≤ 9999
    rw [hfr] at hsum
    omega
  · show n / 60000 % 1440 / 60 < 24
    omega
  · show n / 60000 % 1440 % 60 < 60
    omega

theorem monthLen_le (leap : Bool) (m : Nat) : monthLen leap m ≤ 31 := by
  unfold monthLen
  split <;> first
  | omega
  | (split <;> omega)

theorem dval_dchar : ∀ k, k < 10 → dval (dchar k) = k ∧ isDig (dchar k) = true := by
  decide

theorem parseCivilL_renderCivil (c : Civil) (h1 : 1970 ≤ c.y) (h2 : c.y ≤ 9999)
    (h3 : 1 ≤ c.m) (h4 : c.m ≤ 12) (h5 : 1 ≤ c.d)
    (h6 : c.d ≤ monthLen (isLeap c.y) c.m) (h7 : c.hh < 24) (h8 : c.mi < 60) :
    parseCivilL (renderCivil c) = some c := by
  obtain ⟨y, m, d, hh, mi⟩ := c
  simp only at h1 h2 h3 h4 h5 h6 h7 h8
  have hrender : renderCivil ⟨y, m, d, hh, mi⟩ =
      [dchar (y / 1000 % 10), dchar (y / 100 % 10), dchar (y / 10 % 10), dchar (y % 10),
       '-', dchar (m / 10 % 10), dchar (m % 10), '-', dchar (d / 10 % 10), dchar (d % 10),
       'T', dchar (hh / 10 % 10), dchar (hh % 10), ':', dchar (mi / 10 % 10),
       dchar (mi % 10)] := rfl
  have hd : ∀ k : Nat, dval (dchar (k % 10)) = k % 10 :=
    fun k => (dval_dchar _ (Nat.mod_lt _ (by omega))).1
  have hg : ∀ k : Nat, isDig (dchar (k % 10)) = true :=
    fun k => (dval_dchar _ (Nat.mod_lt _ (by omega))).2
  have hy : y / 1000 % 10 * 1000 + y / 100 % 10 * 100 + y / 10 % 10 * 10 + y % 10 = y := by
    omega
  have hm : m / 10 % 10 * 10 + m % 10 = m := by omega
  have hd31 : d ≤ 31 := le_trans h6 (monthLen_le (isLeap y) m)
  have hdd : d / 10 % 10 * 10 + d % 10 = d := by omega
  have hhh : hh / 10 % 10 * 10 + hh % 10 = hh := by omega
  have hmi : mi / 10 % 10 * 10 + mi % 10 = mi := by omega
  rw [hrender]
  simp only [parseCivilL, hg, hd, hy, hm, hdd, hhh, hmi]
  simp [h1, h3, h4, h5, h6, h7, h8]

/-- C6: round-trip of the Date Parser/Formatter under the (default) date
format: re-parsing a formatted timestamp yields the timestamp truncated to
the minute precision representable by the pattern.  The range hypothesis
keeps the civil decomposition within four-digit years (through the
year 9993), covering every realistic filesystem timestamp. -/
theorem c6_round_trip (s : Settings) (t : Int)
    (_hfmt : s.dateFormat = defaultDateFormat)
    (h0 : 0 ≤ t) (hlt : t < 253234080000000) :
    parseDate s (.inr (formatDate s t)) = some (60000 * (t / 60000)) := by
  have hnlt : t.toNat < 253234080000000 := by omega
  obtain ⟨r1, r2, r3, r4, r5, r6, r7, r8⟩ := msToCivil_ranges t.toNat hnlt
  have hparse := parseCivilL_renderCivil (msToCivil t.toNat) r1 r2 r3 r4 r5 r6 r7 r8
  show (parseCivilL (renderCivil (msToCivil t.toNat))).map (fun c => ((civilToMs c : Nat) : Int)) =
    some (60000 * (t / 60000))
  rw [hparse]
  simp only [Option.map_some']
  have hms : civilToMs (msToCivil t.toNat) = t.toNat / 60000 * 60000 := by
    unfold civilToMs
    rw [civilToMin_msToCivil]
  rw [hms]
  congr 1
  omega

theorem c6_round_trip_witness :
    parseDate DEFAULT_SETTINGS (.inr (formatDate DEFAULT_SETTINGS 1704103440000)) =
      some (60000 * (1704103440000 / 60000)) :=
  c6_round_trip DEFAULT_SETTINGS 1704103440000 rfl (by decide) (by decide)
